import Mathlib

/-!
Verification of the sandboxed code-test execution pipeline of `main.go`:

* `createFS` — assembles the in-memory `fstest.MapFS` for one submission
  (`code.ts`, `Dockerfile`, `test.ts`), panicking when the task's harness
  file `tests/<task>/test.ts` is absent from the embedded catalog;
* `tarImageContext` — serializes the filesystem into a tar stream by
  walking it with `fs.WalkDir` and emitting one header (plus file content)
  per entry, finished by the writer's end marker;
* `executeCodeTest` — drives the docker engine through
  build → create → start → wait → copy → remove, with the container
  removal performed by a `defer` (so it runs on every exit path once the
  create call was reached), creation/start/wait/copy errors merely printed,
  and the single entry of the copied report archive unwrapped as the
  result bytes.

Machine integers do not occur; byte payloads are modelled as `List Nat`.
Engine behaviour (which calls fail, what the copy returns) is a parameter,
and the model returns the outcome together with the list of engine
operations invoked, so ordering/cleanup properties are statements about
that trace.
-/

/-- Raw byte payloads (Go `[]byte`), modelled as lists of naturals. -/
abbrev Bytes := List Nat

/-- A path inside the virtual filesystem, as its list of `/`-separated
components; `[]` is the root directory (`"."` for `fs.WalkDir`). -/
abbrev FsPath := List String

/-- `fstest.MapFile`: data and permission mode of one regular file of the
in-memory filesystem built by `createFS`. -/
structure MapFile where
  data : Bytes
  mode : Nat
deriving DecidableEq

/-- `fstest.MapFS`: a finite mapping from relative paths to files
(association list; under `wf` the keys are distinct). -/
abbrev VFS := List (FsPath × MapFile)

/-- The static content the program reads through `embed.FS`: the build
recipe `image/Dockerfile`, and per task the harness file
`tests/<task>/test.ts` (`none` when the task is unknown, in which case
`files.ReadFile` returns a not-found error). -/
structure Catalog where
  dockerfile : Bytes
  tests : String → Option Bytes

/-- The error conditions on which `executeCodeTest` panics:
a missing harness (`createFS`), a failed `ImageBuild`, and the nil report
stream dereferenced after a failed `CopyFromContainer`. -/
inductive ErrKind
  | notFound
  | buildError
  | nilStream
deriving DecidableEq

/-- The filesystem `createFS` builds when the harness lookup succeeds:
`code.ts` holds the submitted code, `Dockerfile` the embedded recipe, and
`test.ts` the task's harness; every entry gets mode `0644`. -/
def createFSentries (code testFile dockerfile : Bytes) : VFS :=
  [ (["code.ts"], ⟨code, 0o644⟩),
    (["Dockerfile"], ⟨dockerfile, 0o644⟩),
    (["test.ts"], ⟨testFile, 0o644⟩) ]

/-- `createFS(task, code)`: the Go function panics when
`tests/<task>/test.ts` is absent; the panic is modelled as `Except.error`
carrying the not-found condition. -/
def createFS (cat : Catalog) (task : String) (code : Bytes) : Except ErrKind VFS :=
  match cat.tests task with
  | none => .error .notFound
  | some testFile => .ok (createFSentries code testFile cat.dockerfile)

/-- Lookup of a path in the `MapFS` association list (first match). -/
def lookupPath : VFS → FsPath → Option MapFile
  | [], _ => none
  | (q, f) :: rest, p => if q = p then some f else lookupPath rest p

/-- The proper ancestors of a path: the directories `fstest.MapFS`
synthesizes above a file, root included. -/
def ancestorPaths (p : FsPath) : List FsPath :=
  (List.range p.length).map (fun k => p.take k)

/-- Well-formedness of a virtual filesystem, the invariants every
filesystem handed to the packager satisfies (`createFS` output does):
distinct paths, nonempty paths, permission-only modes (below `0o1000`),
and no file lying on the directory chain of another file. -/
def wf (fsys : VFS) : Prop :=
  (fsys.map Prod.fst).Nodup ∧
  (∀ e ∈ fsys, e.1 ≠ [] ∧ e.2.mode < 512) ∧
  (∀ e ∈ fsys, ∀ e' ∈ fsys, e.1 ∉ ancestorPaths e'.1)

/-- Strict lexicographic order on character lists, comparing code points;
for valid UTF-8 this coincides with Go's byte-wise string order, the order
`fs.ReadDir` sorts directory entries by. -/
def charsLtB : List Char → List Char → Bool
  | _, [] => false
  | [], _ :: _ => true
  | c :: cs, d :: ds => if c = d then charsLtB cs ds else decide (c.toNat < d.toNat)

/-- Go's string order on path components. -/
def strLtB (a b : String) : Bool := charsLtB a.data b.data

/-- Strict lexicographic order on component paths, with a proper ancestor
ordered before its descendants.  `fs.WalkDir` visits the entries of a
`MapFS` in exactly this order: it is a pre-order walk whose children are
listed in sorted order (`fs.ReadDir` sorts by filename). -/
def pathLtB : FsPath → FsPath → Bool
  | _, [] => false
  | [], _ :: _ => true
  | a :: as, b :: bs => if a = b then pathLtB as bs else strLtB a b

/-- Reflexive closure of `pathLtB`, the relation the walk order is sorted
by. -/
def pathLe (p q : FsPath) : Prop := pathLtB p q = true ∨ p = q

instance pathLeDec : DecidableRel pathLe := fun p q =>
  inferInstanceAs (Decidable (pathLtB p q = true ∨ p = q))

/-- The sequence of paths `fs.WalkDir` visits on a `MapFS`: the root, the
file paths, and the synthesized parent directories, in pre-order (= sorted
by `pathLe`). -/
def walkPaths (fsys : VFS) : List FsPath :=
  List.insertionSort pathLe
    (([] :: (fsys.map Prod.fst ++ (fsys.map Prod.fst).flatMap ancestorPaths)).dedup)

/-- One visited entry of the walk: its path, whether it is a directory,
its permission bits, and its content (empty for directories). -/
structure WalkEntry where
  path : FsPath
  isDir : Bool
  perm : Nat
  content : Bytes
deriving DecidableEq

/-- The walk entry of one path: a file of the map keeps its data and its
permission bits (`FileInfo.Mode().Perm()`, i.e. `mode & 0o777 = mode % 512`);
any other visited path is a directory `fstest.MapFS` synthesizes with mode
`fs.ModeDir | 0555`. -/
def entryFor (fsys : VFS) (p : FsPath) : WalkEntry :=
  match lookupPath fsys p with
  | some f => ⟨p, false, f.mode % 512, f.data⟩
  | none => ⟨p, true, 0o555, []⟩

/-- All entries of the filesystem in walk order. -/
def walkEntries (fsys : VFS) : List WalkEntry :=
  (walkPaths fsys).map (entryFor fsys)

/-- The archive name of a path: the string `fs.WalkDir` passes to the
callback, which the code stores into `hdr.Name` (overriding the
slash-suffixed name `tar.FileInfoHeader` produced for directories). -/
def pathToName (p : FsPath) : String :=
  if p = [] then "." else String.intercalate "/" p

/-- A tar header, with the fields the claims are about: entry name,
directory flag (`Typeflag = TypeDir` vs `TypeReg`), permission bits, and
declared content size.  The modification time the code stamps
(`time.Now()`) carries no information and is omitted. -/
structure TarHeader where
  name : String
  isDir : Bool
  mode : Nat
  size : Nat
deriving DecidableEq

/-- One unit of the serialized tar stream: a header block, one content
byte, or the end-of-archive marker written by `tarwriter.Close()`. -/
inductive TarBlock
  | header (h : TarHeader)
  | byte (b : Nat)
  | endMarker
deriving DecidableEq

/-- The header `tar.FileInfoHeader` synthesizes for a walk entry (after
the `hdr.Name = file` override): size is the file length, `0` for
directories. -/
def headerFor (e : WalkEntry) : TarHeader :=
  { name := pathToName e.path
    isDir := e.isDir
    mode := e.perm
    size := if e.isDir then 0 else e.content.length }

/-- What the tar writer emits for one entry: the header, then the file
content (`io.Copy(tarwriter, f)`); directories carry no content. -/
def writeEntry (e : WalkEntry) : List TarBlock :=
  TarBlock.header (headerFor e) :: if e.isDir then [] else e.content.map TarBlock.byte

/-- A full tar stream for a list of entries: every entry in order,
finished by the end marker. -/
def serializeTar (es : List WalkEntry) : List TarBlock :=
  es.flatMap writeEntry ++ [TarBlock.endMarker]

/-- `tarImageContext`: walk the filesystem and serialize every visited
entry, in walk order, into one tar stream. -/
def tarImageContext (fsys : VFS) : List TarBlock :=
  serializeTar (walkEntries fsys)

/-- The `(name, isDir, mode, content)` tuple of an archive entry; the
shape both the filesystem view and the re-parsed archive are compared in. -/
abbrev TarTuple := String × Bool × Nat × Bytes

/-- The tuple of one walk entry. -/
def toTuple (e : WalkEntry) : TarTuple :=
  (pathToName e.path, e.isDir, e.perm, e.content)

/-- Read exactly `n` content bytes off the stream (the reader consumes the
declared size of the current entry); fails on a short or malformed
stream. -/
def takeContent : Nat → List TarBlock → Option (Bytes × List TarBlock)
  | 0, rest => some ([], rest)
  | n + 1, TarBlock.byte b :: rest =>
    match takeContent n rest with
    | some (bs, rest') => some (b :: bs, rest')
    | none => none
  | _ + 1, _ => none

/-- Structural replay of a tar stream, fuelled: read a header, read the
declared number of content bytes, repeat until the end marker. -/
def parseAux : List TarBlock → Nat → Option (List TarTuple)
  | _, 0 => none
  | [], _ + 1 => none
  | TarBlock.endMarker :: _, _ + 1 => some []
  | TarBlock.byte _ :: _, _ + 1 => none
  | TarBlock.header h :: rest, fuel + 1 =>
    match takeContent h.size rest with
    | none => none
    | some (content, rest') =>
      match parseAux rest' fuel with
      | none => none
      | some tuples => some ((h.name, h.isDir, h.mode, content) :: tuples)

/-- Re-parse an archive into its entry tuples (`none` on a malformed
stream).  The stream length over-approximates the entry count, so it is
enough fuel. -/
def parseArchive (blocks : List TarBlock) : Option (List TarTuple) :=
  parseAux blocks blocks.length

/-- The `(path, mode, content)` tuples of the filesystem: one per entry
the filesystem contains — its files and the directories `fstest.MapFS`
synthesizes above them, root included. -/
def fsTuples (fsys : VFS) : List TarTuple :=
  (walkEntries fsys).map toTuple

/-- The tuples of the archive `tarImageContext` produced, in stream
order. -/
def archiveTuples (fsys : VFS) : List TarTuple :=
  (parseArchive (tarImageContext fsys)).getD []

/-- The contiguous run of content bytes at the head of a stream: what
`io.Copy` can read from `tar.Reader` before the next header stops it. -/
def bytesOf : List TarBlock → Bytes
  | TarBlock.byte b :: rest => b :: bytesOf rest
  | _ => []

/-- The diagnostics `executeCodeTest` prints with `fmt.Printf`. -/
inductive LogMsg
  | createError
  | startError
  | waitRunError
  | copyError
  | untarError
  | removeError
deriving DecidableEq

/-- The result-extraction step: `tar.NewReader(report)` and one
`tarReader.Next()`, whose error is only printed, then
`io.Copy(&logBuffer, tarReader)` reading the current entry — at most its
declared size.  Returns the bytes and the printed diagnostics. -/
def extractReport (blocks : List TarBlock) : Bytes × List LogMsg :=
  match blocks with
  | TarBlock.header h :: rest => ((bytesOf rest).take h.size, [])
  | _ => ([], [LogMsg.untarError])

/-- The engine operations `executeCodeTest` invokes on the docker client,
in invocation order. -/
inductive EngineOp
  | build (tag : String) (archive : List TarBlock)
  | create (image : String)
  | start
  | wait
  | copy (path : String)
  | remove
deriving DecidableEq

/-- One behaviour of the external docker engine: which lifecycle calls
report an error, and what `CopyFromContainer` returns (`none` models an
error, in which case the returned stream is nil). -/
structure Engine where
  buildErr : Bool
  createErr : Bool
  startErr : Bool
  waitErr : Bool
  copyResult : Option (List WalkEntry)
  removeErr : Bool

/-- How one call of `executeCodeTest` ends: a normal return with the
result bytes, or a panic. -/
inductive ExecOutcome
  | ok (bytes : Bytes)
  | panicked (e : ErrKind)
deriving DecidableEq

/-- Whether the call panicked (aborting the request). -/
def ExecOutcome.isPanic : ExecOutcome → Bool
  | .ok _ => false
  | .panicked _ => true

/-- The observable result of one call: its outcome, the engine operations
invoked, and the diagnostics printed. -/
structure ExecResult where
  outcome : ExecOutcome
  trace : List EngineOp
  logs : List LogMsg

/-- The image tag: `fmt.Sprintf("%s-%s-test", user, task)`. -/
def imageName (user task : String) : String :=
  user ++ "-" ++ task ++ "-test"

/-- The well-known path of the report file copied out of the container. -/
def reportPath : String := "/test/report.xml"

/-- How many removal calls a trace contains. -/
def countRemove : List EngineOp → Nat
  | [] => 0
  | EngineOp.remove :: rest => countRemove rest + 1
  | _ :: rest => countRemove rest

/-- `executeCodeTest(code, task, user)` against an engine behaviour.
Control flow of the Go function:
* a missing harness panics inside `createFS` before any engine call;
* a build error panics before the container is created (no removal);
* once `ContainerCreate` is called, the deferred `ContainerRemove` runs on
  every exit path, exactly once, after `CopyFromContainer`; errors of
  create, start, and wait are printed and the pipeline continues;
* a failed `CopyFromContainer` leaves `report` nil, and the subsequent
  `report.Close` / `tarReader.Next()` dereference of the nil stream
  panics (the deferred removal still runs while unwinding);
* otherwise the first entry of the report archive is unwrapped and its
  bytes are returned; a removal error is only printed. -/
def executeCodeTest (cat : Catalog) (eng : Engine) (code : Bytes)
    (task user : String) : ExecResult :=
  match createFS cat task code with
  | .error e => ⟨.panicked e, [], []⟩
  | .ok fsys =>
    let tag := imageName user task
    let archive := tarImageContext fsys
    if eng.buildErr then
      ⟨.panicked .buildError, [.build tag archive], []⟩
    else
      let runLogs :=
        (if eng.createErr then [LogMsg.createError] else []) ++
        (if eng.startErr then [LogMsg.startError] else []) ++
        (if eng.waitErr then [LogMsg.waitRunError] else [])
      let ops := [EngineOp.build tag archive, .create tag, .start, .wait,
                  .copy reportPath, .remove]
      let endLogs := if eng.removeErr then [LogMsg.removeError] else []
      match eng.copyResult with
      | none =>
        ⟨.panicked .nilStream, ops, runLogs ++ [LogMsg.copyError] ++ endLogs⟩
      | some envelope =>
        let extracted := extractReport (serializeTar envelope)
        ⟨.ok extracted.1, ops, runLogs ++ extracted.2 ++ endLogs⟩

/-- The tag submitted with the build call at the head of a trace. -/
def tagOf : List EngineOp → Option String
  | EngineOp.build tag _ :: _ => some tag
  | _ => none

/-! ### Order lemmas for the walk -/

theorem char_toNat_inj {c d : Char} (h : c.toNat = d.toNat) : c = d := by
  unfold Char.toNat at h
  exact Char.ext (UInt32.toNat.inj h)

theorem charsLtB_irrefl (l : List Char) : charsLtB l l = false := by
  induction l with
  | nil => rfl
  | cons c cs ih => simp [charsLtB, ih]

theorem charsLtB_trans (l : List Char) :
    ∀ m n, charsLtB l m = true → charsLtB m n = true → charsLtB l n = true := by
  induction l with
  | nil =>
    intro m n h1 h2
    cases m with
    | nil => simp [charsLtB] at h1
    | cons d ds =>
      cases n with
      | nil => simp [charsLtB] at h2
      | cons e es => rfl
  | cons c cs ih =>
    intro m n h1 h2
    cases m with
    | nil => simp [charsLtB] at h1
    | cons d ds =>
      cases n with
      | nil => simp [charsLtB] at h2
      | cons e es =>
        by_cases hcd : c = d <;> by_cases hde : d = e
        · subst hcd; subst hde
          simp only [charsLtB, if_pos rfl] at h1 h2 ⊢
          exact ih ds es h1 h2
        · subst hcd
          simp only [charsLtB, if_pos rfl, if_neg hde] at h2
          simp only [charsLtB, if_neg hde]
          exact h2
        · subst hde
          simp only [charsLtB, if_neg hcd] at h1
          simp only [charsLtB, if_neg hcd]
          exact h1
        · simp only [charsLtB, if_neg hcd] at h1
          simp only [charsLtB, if_neg hde] at h2
          have hce : c.toNat < e.toNat :=
            Nat.lt_trans (of_decide_eq_true h1) (of_decide_eq_true h2)
          have hne : c ≠ e := fun he => Nat.ne_of_lt hce (congrArg Char.toNat he)
          simp only [charsLtB, if_neg hne]
          exact decide_eq_true hce

theorem charsLtB_total (l : List Char) :
    ∀ m, l ≠ m → charsLtB l m = true ∨ charsLtB m l = true := by
  induction l with
  | nil =>
    intro m hm
    cases m with
    | nil => exact absurd rfl hm
    | cons d ds => exact Or.inl rfl
  | cons c cs ih =>
    intro m hm
    cases m with
    | nil => exact Or.inr rfl
    | cons d ds =>
      by_cases hcd : c = d
      · subst hcd
        have htl : cs ≠ ds := fun h => hm (by rw [h])
        rcases ih ds htl with h | h
        · exact Or.inl (by simp only [charsLtB, if_pos rfl]; exact h)
        · exact Or.inr (by simp only [charsLtB, if_pos rfl]; exact h)
      · rcases Nat.lt_trichotomy c.toNat d.toNat with h | h | h
        · exact Or.inl (by simp only [charsLtB, if_neg hcd]; exact decide_eq_true h)
        · exact absurd (char_toNat_inj h) hcd
        · have hdc : d ≠ c := fun hh => hcd hh.symm
          exact Or.inr (by simp only [charsLtB, if_neg hdc]; exact decide_eq_true h)

theorem strLtB_irrefl (a : String) : strLtB a a = false :=
  charsLtB_irrefl a.data

theorem strLtB_trans {a b c : String} (h1 : strLtB a b = true)
    (h2 : strLtB b c = true) : strLtB a c = true :=
  charsLtB_trans a.data b.data c.data h1 h2

theorem strLtB_ne {a b : String} (h : strLtB a b = true) : a ≠ b := by
  intro he
  subst he
  rw [strLtB_irrefl] at h
  exact Bool.false_ne_true h

theorem strLtB_total (a b : String) (h : a ≠ b) :
    strLtB a b = true ∨ strLtB b a = true :=
  charsLtB_total a.data b.data (fun hd => h (String.ext hd))

theorem pathLtB_irrefl (p : FsPath) : pathLtB p p = false := by
  induction p with
  | nil => rfl
  | cons a as ih => simp [pathLtB, ih]

theorem pathLtB_trans (p : FsPath) :
    ∀ q r, pathLtB p q = true → pathLtB q r = true → pathLtB p r = true := by
  induction p with
  | nil =>
    intro q r h1 h2
    cases q with
    | nil => simp [pathLtB] at h1
    | cons b bs =>
      cases r with
      | nil => simp [pathLtB] at h2
      | cons c cs => rfl
  | cons a as ih =>
    intro q r h1 h2
    cases q with
    | nil => simp [pathLtB] at h1
    | cons b bs =>
      cases r with
      | nil => simp [pathLtB] at h2
      | cons c cs =>
        by_cases hab : a = b <;> by_cases hbc : b = c
        · subst hab; subst hbc
          simp only [pathLtB, if_pos rfl] at h1 h2 ⊢
          exact ih bs cs h1 h2
        · subst hab
          simp only [pathLtB, if_pos rfl, if_neg hbc] at h2
          simp only [pathLtB, if_neg hbc]
          exact h2
        · subst hbc
          simp only [pathLtB, if_neg hab] at h1
          simp only [pathLtB, if_neg hab]
          exact h1
        · simp only [pathLtB, if_neg hab] at h1
          simp only [pathLtB, if_neg hbc] at h2
          have hac : strLtB a c = true := strLtB_trans h1 h2
          simp only [pathLtB, if_neg (strLtB_ne hac)]
          exact hac

theorem pathLtB_asymm {p q : FsPath} (h : pathLtB p q = true) : pathLtB q p = false := by
  by_contra hc
  have h2 : pathLtB q p = true := by
    cases hqp : pathLtB q p with
    | true => rfl
    | false => exact absurd hqp hc
  have := pathLtB_trans p q p h h2
  rw [pathLtB_irrefl] at this
  exact Bool.false_ne_true this

theorem pathLtB_total (p : FsPath) :
    ∀ q, p ≠ q → pathLtB p q = true ∨ pathLtB q p = true := by
  induction p with
  | nil =>
    intro q hq
    cases q with
    | nil => exact absurd rfl hq
    | cons c cs => exact Or.inl rfl
  | cons a as ih =>
    intro q hq
    cases q with
    | nil => exact Or.inr rfl
    | cons b bs =>
      by_cases hab : a = b
      · subst hab
        have htl : as ≠ bs := fun h => hq (by rw [h])
        rcases ih bs htl with h | h
        · exact Or.inl (by simp only [pathLtB, if_pos rfl]; exact h)
        · exact Or.inr (by simp only [pathLtB, if_pos rfl]; exact h)
      · have hba : b ≠ a := fun hh => hab hh.symm
        rcases strLtB_total a b hab with h | h
        · exact Or.inl (by simp only [pathLtB, if_neg hab]; exact h)
        · exact Or.inr (by simp only [pathLtB, if_neg hba]; exact h)

theorem pathLtB_ancestor (p : FsPath) (c : String) (cs : List String) :
    pathLtB p (p ++ c :: cs) = true := by
  induction p with
  | nil => rfl
  | cons a as ih => simp [pathLtB, ih]

theorem pathLe_strict {p q : FsPath} (h : pathLe p q) (hne : p ≠ q) :
    pathLtB p q = true := by
  rcases h with h | h
  · exact h
  · exact absurd h hne

instance : IsTotal FsPath pathLe :=
  ⟨fun p q => by
    by_cases h : p = q
    · exact Or.inl (Or.inr h)
    · rcases pathLtB_total p q h with h' | h'
      · exact Or.inl (Or.inl h')
      · exact Or.inr (Or.inl h')⟩

instance : IsTrans FsPath pathLe :=
  ⟨fun p q r h1 h2 => by
    rcases h1 with h1 | rfl
    · rcases h2 with h2 | rfl
      · exact Or.inl (pathLtB_trans p q r h1 h2)
      · exact Or.inl h1
    · exact h2⟩

/-- In a `pathLe`-sorted duplicate-free list, an element strictly below
another appears at a strictly earlier position. -/
theorem sorted_pos_lt {l : List FsPath} (hs : List.Sorted pathLe l) (hn : l.Nodup)
    {p q : FsPath} (hp : p ∈ l) (hq : q ∈ l) (hlt : pathLtB p q = true) :
    ∃ i j : Nat, i < j ∧ l[i]? = some p ∧ l[j]? = some q := by
  obtain ⟨i, hi, hip⟩ := List.mem_iff_getElem.mp hp
  obtain ⟨j, hj, hjq⟩ := List.mem_iff_getElem.mp hq
  have hpw : List.Pairwise (fun a b => pathLe a b ∧ a ≠ b) l := hs.and hn
  rcases lt_trichotomy i j with h | h | h
  · refine ⟨i, j, h, ?_, ?_⟩
    · rw [List.getElem?_eq_getElem hi, hip]
    · rw [List.getElem?_eq_getElem hj, hjq]
  · exfalso
    subst h
    have : p = q := by rw [← hip, ← hjq]
    subst this
    rw [pathLtB_irrefl] at hlt
    exact Bool.false_ne_true hlt
  · exfalso
    have := List.pairwise_iff_getElem.mp hpw j i hj hi h
    rw [hip, hjq] at this
    have hqp : pathLtB q p = true := pathLe_strict this.1 this.2
    rw [pathLtB_asymm hqp] at hlt
    exact Bool.false_ne_true hlt

theorem walkPaths_sorted (fsys : VFS) : List.Sorted pathLe (walkPaths fsys) :=
  List.sorted_insertionSort pathLe _

theorem walkPaths_nodup (fsys : VFS) : (walkPaths fsys).Nodup :=
  (List.perm_insertionSort pathLe _).nodup_iff.mpr (List.nodup_dedup _)

theorem mem_walkPaths {fsys : VFS} {p : FsPath} :
    p ∈ walkPaths fsys ↔
      p = [] ∨ p ∈ fsys.map Prod.fst ∨ p ∈ (fsys.map Prod.fst).flatMap ancestorPaths := by
  unfold walkPaths
  rw [List.mem_insertionSort, List.mem_dedup, List.mem_cons, List.mem_append]

/-! ### Round trip of the tar stream -/

theorem lookupPath_eq_some {fsys : VFS} (hn : (fsys.map Prod.fst).Nodup)
    {p : FsPath} {f : MapFile} (hm : (p, f) ∈ fsys) : lookupPath fsys p = some f := by
  induction fsys with
  | nil => cases hm
  | cons e rest ih =>
    obtain ⟨q, g⟩ := e
    rw [List.map_cons, List.nodup_cons] at hn
    rcases List.mem_cons.mp hm with heq | hm'
    · cases heq
      simp [lookupPath]
    · have hq : q ≠ p := by
        intro h
        subst h
        exact hn.1 (List.mem_map.mpr ⟨(q, f), hm', rfl⟩)
      simp only [lookupPath, if_neg hq]
      exact ih hn.2 hm'

theorem serializeTar_cons (e : WalkEntry) (es : List WalkEntry) :
    serializeTar (e :: es) = writeEntry e ++ serializeTar es := by
  simp [serializeTar, List.flatMap_cons, List.append_assoc]

theorem length_serializeTar (es : List WalkEntry) :
    es.length + 1 ≤ (serializeTar es).length := by
  induction es with
  | nil => simp [serializeTar]
  | cons e es ih =>
    rw [serializeTar_cons, List.length_append, List.length_cons]
    have h1 : 1 ≤ (writeEntry e).length := by
      simp [writeEntry]
    omega

theorem takeContent_exact (c : Bytes) (rest : List TarBlock) :
    takeContent c.length (c.map TarBlock.byte ++ rest) = some (c, rest) := by
  induction c with
  | nil => rfl
  | cons b bs ih => simp [takeContent, ih]

theorem parseAux_step (h : TarHeader) (c : Bytes) (rest : List TarBlock) (f : Nat)
    (hsize : h.size = c.length) :
    parseAux (TarBlock.header h :: (c.map TarBlock.byte ++ rest)) (f + 1) =
      (parseAux rest f).map (fun tuples => (h.name, h.isDir, h.mode, c) :: tuples) := by
  simp only [parseAux, hsize, takeContent_exact]
  cases parseAux rest f <;> rfl

theorem parseAux_serializeTar (es : List WalkEntry) :
    ∀ fuel, es.length + 1 ≤ fuel →
      (∀ e ∈ es, e.isDir = true → e.content = []) →
      parseAux (serializeTar es) fuel = some (es.map toTuple) := by
  induction es with
  | nil =>
    intro fuel hf _
    cases fuel with
    | zero => omega
    | succ f => rfl
  | cons e es ih =>
    intro fuel hf hdirs
    cases fuel with
    | zero => simp at hf
    | succ f =>
      have hfe : es.length + 1 ≤ f := by
        rw [List.length_cons] at hf
        omega
      have ihr := ih f hfe (fun x hx => hdirs x (List.mem_cons_of_mem e hx))
      have hcontent : (if e.isDir then [] else e.content) = e.content := by
        cases hd : e.isDir with
        | true =>
          simp only [if_pos]
          exact (hdirs e (List.mem_cons_self e es) hd).symm
        | false => rfl
      have hw : writeEntry e ++ serializeTar es =
          TarBlock.header (headerFor e) ::
            ((if e.isDir then [] else e.content).map TarBlock.byte ++ serializeTar es) := by
        rw [writeEntry, List.cons_append]
        cases hd : e.isDir <;> simp
      have hsize : (headerFor e).size = (if e.isDir then [] else e.content).length := by
        rw [headerFor]
        cases hd : e.isDir <;> simp
      rw [serializeTar_cons, hw, parseAux_step _ _ _ f hsize, ihr, hcontent,
        Option.map_some', List.map_cons, toTuple]
      rfl

theorem parseArchive_serializeTar (es : List WalkEntry)
    (hdirs : ∀ e ∈ es, e.isDir = true → e.content = []) :
    parseArchive (serializeTar es) = some (es.map toTuple) :=
  parseAux_serializeTar es _ (length_serializeTar es) hdirs

theorem walkEntries_dir_content {fsys : VFS} :
    ∀ e ∈ walkEntries fsys, e.isDir = true → e.content = [] := by
  intro e he hd
  rw [walkEntries, List.mem_map] at he
  obtain ⟨p, _, rfl⟩ := he
  rw [entryFor] at hd ⊢
  cases hl : lookupPath fsys p <;> simp [hl] at hd ⊢

theorem parseArchive_tarImageContext (fsys : VFS) :
    parseArchive (tarImageContext fsys) = some (fsTuples fsys) :=
  parseArchive_serializeTar (walkEntries fsys) walkEntries_dir_content

/-! ### Extraction of the report envelope -/

theorem bytesOf_map_byte (c : Bytes) (blocks : List TarBlock)
    (h : ∀ b, blocks.head? ≠ some (TarBlock.byte b)) :
    bytesOf (c.map TarBlock.byte ++ blocks) = c := by
  induction c with
  | nil =>
    cases blocks with
    | nil => rfl
    | cons x rest =>
      cases x with
      | header hd => rfl
      | byte b => exact absurd rfl (h b)
      | endMarker => rfl
  | cons b bs ih => simp [bytesOf, ih]

theorem serializeTar_head_not_byte (es : List WalkEntry) :
    ∀ b, (serializeTar es).head? ≠ some (TarBlock.byte b) := by
  intro b
  cases es with
  | nil => simp [serializeTar]
  | cons e es =>
    rw [serializeTar_cons, writeEntry, List.cons_append]
    simp

theorem extractReport_serializeTar (e : WalkEntry) (rest : List WalkEntry)
    (he : e.isDir = false) :
    extractReport (serializeTar (e :: rest)) = (e.content, []) := by
  obtain ⟨pa, d, pm, c⟩ := e
  cases he
  rw [serializeTar_cons]
  show ((bytesOf (c.map TarBlock.byte ++ serializeTar rest)).take c.length,
      ([] : List LogMsg)) = (c, [])
  rw [bytesOf_map_byte _ _ (serializeTar_head_not_byte rest), List.take_length]

/-! ### The lifecycle trace -/

theorem tagOf_exec {cat : Catalog} {task : String} {testFile : Bytes}
    (eng : Engine) (code : Bytes) (user : String)
    (h : cat.tests task = some testFile) :
    tagOf (executeCodeTest cat eng code task user).trace = some (imageName user task) := by
  cases hb : eng.buildErr <;> cases hc : eng.copyResult <;>
    simp [executeCodeTest, createFS, h, hb, hc, tagOf]

/-! ### The claims -/

/-- C5: for every valid `(taskID, code)` pair (the catalog holds the
task's harness), `createFS` produces a filesystem with exactly one entry
at the canonical submission path `code.ts` and exactly one at the
canonical harness path `test.ts`, each with content byte-identical to the
submitted code resp. the catalog's harness file, and every entry of the
filesystem carries the same readable/writable mode `0644`. -/
theorem createFS_canonical (cat : Catalog) (task : String) (code testFile : Bytes)
    (h : cat.tests task = some testFile) :
    ∃ fsys, createFS cat task code = Except.ok fsys ∧
      (fsys.map Prod.fst).count ["code.ts"] = 1 ∧
      (fsys.map Prod.fst).count ["test.ts"] = 1 ∧
      lookupPath fsys ["code.ts"] = some ⟨code, 0o644⟩ ∧
      lookupPath fsys ["test.ts"] = some ⟨testFile, 0o644⟩ ∧
      ∀ e ∈ fsys, e.2.mode = 0o644 := by
  refine ⟨createFSentries code testFile cat.dockerfile, ?_, ?_, ?_, ?_, ?_, ?_⟩
  · rw [createFS, h]
  · simp [createFSentries, List.count_cons]
  · simp [createFSentries, List.count_cons]
  · simp [lookupPath, createFSentries]
  · simp [lookupPath, createFSentries]
  · intro e he
    simp only [createFSentries, List.mem_cons, List.not_mem_nil, or_false] at he
    rcases he with rfl | rfl | rfl <;> rfl

/-- Witness for `createFS_canonical` at a concrete catalog, task and
submission. -/
theorem createFS_canonical_w :
    ∃ fsys, createFS ⟨[7], fun _ => some [8]⟩ "sum" [9] = Except.ok fsys ∧
      (fsys.map Prod.fst).count ["code.ts"] = 1 ∧
      (fsys.map Prod.fst).count ["test.ts"] = 1 ∧
      lookupPath fsys ["code.ts"] = some ⟨[9], 0o644⟩ ∧
      lookupPath fsys ["test.ts"] = some ⟨[8], 0o644⟩ ∧
      ∀ e ∈ fsys, e.2.mode = 0o644 :=
  createFS_canonical ⟨[7], fun _ => some [8]⟩ "sum" [9] [8] rfl

/-- C2: against a task whose harness is absent from the catalog, the
execution fails with the not-found condition and its engine trace is
empty — no build, create, start, wait, or copy call is ever made. -/
theorem exec_missing_harness (cat : Catalog) (eng : Engine) (code : Bytes)
    (task user : String) (h : cat.tests task = none) :
    (executeCodeTest cat eng code task user).outcome =
        ExecOutcome.panicked ErrKind.notFound ∧
    (executeCodeTest cat eng code task user).trace = [] := by
  constructor <;> simp [executeCodeTest, createFS, h]

/-- Witness for `exec_missing_harness` at an empty catalog. -/
theorem exec_missing_harness_w :
    (executeCodeTest ⟨[], fun _ => none⟩ ⟨false, false, false, false, none, false⟩
        [] "sum" "u").outcome = ExecOutcome.panicked ErrKind.notFound ∧
    (executeCodeTest ⟨[], fun _ => none⟩ ⟨false, false, false, false, none, false⟩
        [] "sum" "u").trace = [] :=
  exec_missing_harness ⟨[], fun _ => none⟩ ⟨false, false, false, false, none, false⟩
    [] "sum" "u" rfl

/-- C1: whenever a runnable unit is created (the harness exists and the
build call did not panic, so `ContainerCreate` and the deferred
`ContainerRemove` are reached), the trace attempts the removal exactly
once, at a position strictly after the collection (copy) attempt — and
this holds whatever errors the create, start, wait, copy, or remove calls
report; moreover the removal attempt's own failure never changes the
outcome surfaced to the caller. -/
theorem remove_once_after_collect (cat : Catalog) (eng : Engine) (code : Bytes)
    (task user : String) (testFile : Bytes)
    (h : cat.tests task = some testFile) (hb : eng.buildErr = false) :
    countRemove (executeCodeTest cat eng code task user).trace = 1 ∧
    (∃ i j : Nat, i < j ∧
      (executeCodeTest cat eng code task user).trace[i]? =
        some (EngineOp.copy reportPath) ∧
      (executeCodeTest cat eng code task user).trace[j]? = some EngineOp.remove) ∧
    (∀ b : Bool,
      (executeCodeTest cat { eng with removeErr := b } code task user).outcome =
        (executeCodeTest cat eng code task user).outcome) := by
  obtain ⟨be, ce, se, we, cr, re⟩ := eng
  replace hb : be = false := hb
  subst hb
  cases cr with
  | none =>
    refine ⟨?_, ⟨4, 5, by omega, ?_, ?_⟩, ?_⟩ <;>
      simp [executeCodeTest, createFS, h, countRemove]
  | some envelope =>
    refine ⟨?_, ⟨4, 5, by omega, ?_, ?_⟩, ?_⟩ <;>
      simp [executeCodeTest, createFS, h, countRemove]

/-- Witness for `remove_once_after_collect` at a concrete catalog and an
engine whose create, start, wait and remove calls all fail. -/
theorem remove_once_after_collect_w :
    countRemove (executeCodeTest ⟨[7], fun _ => some [8]⟩
        ⟨false, true, true, true, none, true⟩ [9] "sum" "u").trace = 1 ∧
    (∃ i j : Nat, i < j ∧
      (executeCodeTest ⟨[7], fun _ => some [8]⟩
        ⟨false, true, true, true, none, true⟩ [9] "sum" "u").trace[i]? =
          some (EngineOp.copy reportPath) ∧
      (executeCodeTest ⟨[7], fun _ => some [8]⟩
        ⟨false, true, true, true, none, true⟩ [9] "sum" "u").trace[j]? =
          some EngineOp.remove) ∧
    (∀ b : Bool,
      (executeCodeTest ⟨[7], fun _ => some [8]⟩
        { (⟨false, true, true, true, none, true⟩ : Engine) with removeErr := b }
        [9] "sum" "u").outcome =
      (executeCodeTest ⟨[7], fun _ => some [8]⟩
        ⟨false, true, true, true, none, true⟩ [9] "sum" "u").outcome) :=
  remove_once_after_collect ⟨[7], fun _ => some [8]⟩
    ⟨false, true, true, true, none, true⟩ [9] "sum" "u" [8] rfl rfl

/-- C3: packing a well-formed virtual filesystem with `tarImageContext`
and re-parsing the archive reconstructs exactly the `(path, mode, content)`
tuples of the filesystem — entry for entry, in order, where the
filesystem's entries are its files together with the directories
`fstest.MapFS` synthesizes above them (root included), exactly what
`fs.WalkDir` enumerates; in particular every file of the map reappears in
the parsed archive with its path, its permission bits, and its exact
bytes. -/
theorem tar_roundtrip (fsys : VFS) (hwf : wf fsys) :
    parseArchive (tarImageContext fsys) = some (fsTuples fsys) ∧
    ∀ p f, (p, f) ∈ fsys → (pathToName p, false, f.mode, f.data) ∈ fsTuples fsys := by
  refine ⟨parseArchive_tarImageContext fsys, ?_⟩
  intro p f hm
  have hp : p ∈ walkPaths fsys := by
    rw [mem_walkPaths]
    exact Or.inr (Or.inl (List.mem_map.mpr ⟨(p, f), hm, rfl⟩))
  have hl : lookupPath fsys p = some f := lookupPath_eq_some hwf.1 hm
  have hmode : f.mode % 512 = f.mode :=
    Nat.mod_eq_of_lt (hwf.2.1 (p, f) hm).2
  rw [fsTuples, walkEntries, List.map_map]
  refine List.mem_map.mpr ⟨p, hp, ?_⟩
  simp [Function.comp, entryFor, hl, toTuple, hmode]

/-- Witness for `tar_roundtrip` at the concrete filesystem `createFS`
assembles. -/
theorem tar_roundtrip_w :
    parseArchive (tarImageContext (createFSentries [1] [2] [3])) =
        some (fsTuples (createFSentries [1] [2] [3])) ∧
    ∀ p f, (p, f) ∈ createFSentries [1] [2] [3] →
      (pathToName p, false, f.mode, f.data) ∈ fsTuples (createFSentries [1] [2] [3]) :=
  tar_roundtrip (createFSentries [1] [2] [3])
    (by rw [wf]; exact ⟨by decide, by decide, by decide⟩)

/-- C4: in the archive `tarImageContext` produces from a well-formed
filesystem, an entry whose path has its parent directory also present
among the filesystem's entries appears at a strictly later stream
position than the parent directory's entry. -/
theorem parent_before_child (fsys : VFS) (_hwf : wf fsys) (p : FsPath) (c : String)
    (hp : p ∈ walkPaths fsys) (hq : p ++ [c] ∈ walkPaths fsys) :
    ∃ i j : Nat, i < j ∧
      (archiveTuples fsys)[i]? = some (toTuple (entryFor fsys p)) ∧
      (archiveTuples fsys)[j]? = some (toTuple (entryFor fsys (p ++ [c]))) := by
  have hlt : pathLtB p (p ++ [c]) = true := pathLtB_ancestor p c []
  obtain ⟨i, j, hij, hi, hj⟩ :=
    sorted_pos_lt (walkPaths_sorted fsys) (walkPaths_nodup fsys) hp hq hlt
  have harch : archiveTuples fsys =
      (walkPaths fsys).map (fun q => toTuple (entryFor fsys q)) := by
    rw [archiveTuples, parseArchive_tarImageContext, Option.getD_some,
      fsTuples, walkEntries, List.map_map]
    rfl
  refine ⟨i, j, hij, ?_, ?_⟩
  · rw [harch, List.getElem?_map, hi]
    rfl
  · rw [harch, List.getElem?_map, hj]
    rfl

/-- Witness for `parent_before_child`: in the archive of the filesystem
`createFS` assembles, the root directory entry precedes `code.ts`. -/
theorem parent_before_child_w :
    ∃ i j : Nat, i < j ∧
      (archiveTuples (createFSentries [1] [2] [3]))[i]? =
        some (toTuple (entryFor (createFSentries [1] [2] [3]) [])) ∧
      (archiveTuples (createFSentries [1] [2] [3]))[j]? =
        some (toTuple (entryFor (createFSentries [1] [2] [3]) ([] ++ ["code.ts"]))) :=
  parent_before_child (createFSentries [1] [2] [3])
    (by rw [wf]; exact ⟨by decide, by decide, by decide⟩)
    [] "code.ts" (by decide) (by decide)

/-- C6 as stated is refuted at a concrete input: with the harness present
in the catalog and the build succeeding, a failed copy-out of the report
still aborts the request (the nil stream returned by the failed
`CopyFromContainer` is dereferenced and the call panics), so catalog-miss
and build failures are not the only aborts. -/
theorem exec_abort_beyond_build_cx :
    Catalog.tests ⟨[7], fun _ => some [8]⟩ "sum" = some [8] ∧
    Engine.buildErr ⟨false, false, false, false, none, false⟩ = false ∧
    (executeCodeTest ⟨[7], fun _ => some [8]⟩ ⟨false, false, false, false, none, false⟩
        [9] "sum" "u").outcome.isPanic = true :=
  ⟨rfl, rfl, rfl⟩

/-- C6 (amended): within one execution, only catalog-miss, build, and
report-copy failures abort the request; a failure in create, start, or
wait is logged and the pipeline still attempts every later step (start,
wait, collection, removal) in lifecycle order rather than aborting. -/
theorem exec_error_policy (cat : Catalog) (eng : Engine) (code : Bytes)
    (task user : String) :
    ((executeCodeTest cat eng code task user).outcome.isPanic = true ↔
      (cat.tests task = none ∨ eng.buildErr = true ∨ eng.copyResult = none)) ∧
    (∀ testFile, cat.tests task = some testFile → eng.buildErr = false →
      (executeCodeTest cat eng code task user).trace =
        [EngineOp.build (imageName user task)
            (tarImageContext (createFSentries code testFile cat.dockerfile)),
          EngineOp.create (imageName user task), EngineOp.start, EngineOp.wait,
          EngineOp.copy reportPath, EngineOp.remove] ∧
      (eng.createErr = true →
        LogMsg.createError ∈ (executeCodeTest cat eng code task user).logs) ∧
      (eng.startErr = true →
        LogMsg.startError ∈ (executeCodeTest cat eng code task user).logs) ∧
      (eng.waitErr = true →
        LogMsg.waitRunError ∈ (executeCodeTest cat eng code task user).logs)) := by
  obtain ⟨be, ce, se, we, cr, re⟩ := eng
  constructor
  · cases hcat : cat.tests task <;> cases be <;> cases cr <;>
      simp [executeCodeTest, createFS, hcat, ExecOutcome.isPanic]
  · intro testFile hcat hb
    replace hb : be = false := hb
    subst hb
    cases cr <;>
      refine ⟨?_, ?_, ?_, ?_⟩ <;>
      cases ce <;> cases se <;> cases we <;>
      simp [executeCodeTest, createFS, hcat]

/-- Witness for `exec_error_policy`, at a concrete run whose create,
start and wait calls all fail while the copy succeeds: the full lifecycle
trace is still produced and each failure is logged. -/
theorem exec_error_policy_w :
    (executeCodeTest ⟨[7], fun _ => some [8]⟩ ⟨false, true, true, true, some [], false⟩
        [9] "sum" "u").trace =
      [EngineOp.build (imageName "u" "sum")
          (tarImageContext (createFSentries [9] [8] [7])),
        EngineOp.create (imageName "u" "sum"), EngineOp.start, EngineOp.wait,
        EngineOp.copy reportPath, EngineOp.remove] ∧
    LogMsg.createError ∈ (executeCodeTest ⟨[7], fun _ => some [8]⟩
        ⟨false, true, true, true, some [], false⟩ [9] "sum" "u").logs ∧
    LogMsg.startError ∈ (executeCodeTest ⟨[7], fun _ => some [8]⟩
        ⟨false, true, true, true, some [], false⟩ [9] "sum" "u").logs ∧
    LogMsg.waitRunError ∈ (executeCodeTest ⟨[7], fun _ => some [8]⟩
        ⟨false, true, true, true, some [], false⟩ [9] "sum" "u").logs := by
  have h := (exec_error_policy ⟨[7], fun _ => some [8]⟩
    ⟨false, true, true, true, some [], false⟩ [9] "sum" "u").2 [8] rfl rfl
  exact ⟨h.1, h.2.1 rfl, h.2.2.1 rfl, h.2.2.2 rfl⟩

/-- C7 evaluation: when the copy-out of the report returns an error (nil
stream), `executeCodeTest` does not return normally — it panics on the
nil stream dereference, aborting the request instead of returning the
partial (empty) payload the specification prescribes. -/
theorem copy_failure_panics (cat : Catalog) (eng : Engine) (code : Bytes)
    (task user : String) (testFile : Bytes)
    (h : cat.tests task = some testFile) (hb : eng.buildErr = false)
    (hc : eng.copyResult = none) :
    (executeCodeTest cat eng code task user).outcome =
      ExecOutcome.panicked ErrKind.nilStream := by
  obtain ⟨be, ce, se, we, cr, re⟩ := eng
  replace hb : be = false := hb
  replace hc : cr = none := hc
  subst hb
  subst hc
  simp [executeCodeTest, createFS, h]

/-- Witness for `copy_failure_panics` at a concrete catalog and engine. -/
theorem copy_failure_panics_w :
    (executeCodeTest ⟨[7], fun _ => some [8]⟩ ⟨false, false, false, false, none, false⟩
        [9] "sum" "u").outcome = ExecOutcome.panicked ErrKind.nilStream :=
  copy_failure_panics ⟨[7], fun _ => some [8]⟩ ⟨false, false, false, false, none, false⟩
    [9] "sum" "u" [8] rfl rfl rfl

/-- C8: when the copy succeeds, the extractor unwraps exactly the first
entry of the transport archive envelope and returns that entry's raw
content as the result bytes, whatever further entries the envelope
holds. -/
theorem extract_unwraps_first (cat : Catalog) (eng : Engine) (code : Bytes)
    (task user : String) (testFile : Bytes) (e : WalkEntry) (rest : List WalkEntry)
    (h : cat.tests task = some testFile) (hb : eng.buildErr = false)
    (hc : eng.copyResult = some (e :: rest)) (he : e.isDir = false) :
    (executeCodeTest cat eng code task user).outcome = ExecOutcome.ok e.content := by
  obtain ⟨be, ce, se, we, cr, re⟩ := eng
  replace hb : be = false := hb
  replace hc : cr = some (e :: rest) := hc
  subst hb
  subst hc
  simp [executeCodeTest, createFS, h, extractReport_serializeTar e rest he]

/-- Witness for `extract_unwraps_first`: a two-entry envelope, whose
second entry is ignored. -/
theorem extract_unwraps_first_w :
    (executeCodeTest ⟨[7], fun _ => some [8]⟩
        ⟨false, false, false, false,
          some [⟨["report.xml"], false, 420, [1, 2]⟩, ⟨["junk"], false, 420, [3]⟩],
          false⟩
        [9] "sum" "u").outcome = ExecOutcome.ok [1, 2] :=
  extract_unwraps_first ⟨[7], fun _ => some [8]⟩
    ⟨false, false, false, false,
      some [⟨["report.xml"], false, 420, [1, 2]⟩, ⟨["junk"], false, 420, [3]⟩],
      false⟩
    [9] "sum" "u" [8] ⟨["report.xml"], false, 420, [1, 2]⟩
    [⟨["junk"], false, 420, [3]⟩] rfl rfl rfl rfl

/-- C9: the build tag is a deterministic function of the user and task
identifiers alone — any two executions with the same `(userID, taskID)`
submit the same tag `imageName user task` with their build call,
whatever the submitted code or the engine behaviour. -/
theorem tag_ignores_code (cat₁ cat₂ : Catalog) (eng₁ eng₂ : Engine)
    (code₁ code₂ : Bytes) (task user : String) (t₁ t₂ : Bytes)
    (h₁ : cat₁.tests task = some t₁) (h₂ : cat₂.tests task = some t₂) :
    tagOf (executeCodeTest cat₁ eng₁ code₁ task user).trace =
      some (imageName user task) ∧
    tagOf (executeCodeTest cat₁ eng₁ code₁ task user).trace =
      tagOf (executeCodeTest cat₂ eng₂ code₂ task user).trace := by
  have w₁ := tagOf_exec eng₁ code₁ user h₁
  have w₂ := tagOf_exec eng₂ code₂ user h₂
  exact ⟨w₁, w₁.trans w₂.symm⟩

/-- Witness for `tag_ignores_code`: two runs of task `"sum"` by user
`"u"` with different submissions carry the same tag. -/
theorem tag_ignores_code_w :
    tagOf (executeCodeTest ⟨[7], fun _ => some [8]⟩
        ⟨false, false, false, false, some [], false⟩ [1] "sum" "u").trace =
      some (imageName "u" "sum") ∧
    tagOf (executeCodeTest ⟨[7], fun _ => some [8]⟩
        ⟨false, false, false, false, some [], false⟩ [1] "sum" "u").trace =
      tagOf (executeCodeTest ⟨[7], fun _ => some [8]⟩
        ⟨true, false, false, false, none, false⟩ [2] "sum" "u").trace :=
  tag_ignores_code ⟨[7], fun _ => some [8]⟩ ⟨[7], fun _ => some [8]⟩
    ⟨false, false, false, false, some [], false⟩
    ⟨true, false, false, false, none, false⟩ [1] [2] "sum" "u" [8] [8] rfl rfl

/-- C10: the tag derivation is not injective — the user `"a-b"` with task
`"c"` and the user `"a"` with task `"b-c"` are distinct pairs that produce
the same tag, so a tag does not identify one user/task combination. -/
theorem imageName_not_injective :
    imageName "a-b" "c" = imageName "a" "b-c" ∧
    ("a-b", "c") ≠ (("a", "b-c") : String × String) := by
  exact ⟨rfl, by decide⟩
